import Mathlib

set_option synthInstance.maxSize 1000

/-!
Verification development for the Tool-Launcher repository.

The repository has two implementations of the same launcher:
a monolithic variant in ToolLauncer.py (class ToolLauncher) and a
split variant in tool_launcher_logic.py (class ToolLauncherLogic)
plus tool_launcher_gui.py (class ToolLauncherGUI).  The definitions
below are shallow embeddings of the data-handling methods of those
classes, translated line by line from the Python source.  JSON
objects are modelled as ordered association lists of string fields,
JSON catalogue values as a small inductive type, and Python dicts as
ordered association lists with first-match lookup, which matches the
insertion-ordered semantics of Python dicts.  Python statements that
can raise are embedded in the Except monad; file reads and writes are
modelled as succeeding, with the file content threaded explicitly
where a claim is about the on-disk state.
-/

/-- ASCII lower-casing of one character, as Python str.lower acts on
the ASCII letters that appear in this data model. -/
def lowerChar : Char → Char
  | 'A' => 'a' | 'B' => 'b' | 'C' => 'c' | 'D' => 'd' | 'E' => 'e'
  | 'F' => 'f' | 'G' => 'g' | 'H' => 'h' | 'I' => 'i' | 'J' => 'j'
  | 'K' => 'k' | 'L' => 'l' | 'M' => 'm' | 'N' => 'n' | 'O' => 'o'
  | 'P' => 'p' | 'Q' => 'q' | 'R' => 'r' | 'S' => 's' | 'T' => 't'
  | 'U' => 'u' | 'V' => 'v' | 'W' => 'w' | 'X' => 'x' | 'Y' => 'y'
  | 'Z' => 'z'
  | c => c

/-- Python str.lower, embedded over the character list of a string. -/
def pyLower (s : String) : String := String.mk (s.data.map lowerChar)

/-- Python whitespace test used by str.strip. -/
def isPySpace (c : Char) : Bool :=
  c == ' ' || c == '\t' || c == '\n' || c == '\r' ||
  c == Char.ofNat 11 || c == Char.ofNat 12

/-- Python str.strip: drop whitespace from both ends. -/
def pyStrip (s : String) : String :=
  String.mk (((s.data.dropWhile isPySpace).reverse.dropWhile isPySpace).reverse)

/-- Does the second character list start with the first one. -/
def charsStartWith : List Char → List Char → Bool
  | [], _ => true
  | _ :: _, [] => false
  | a :: as, b :: bs => a == b && charsStartWith as bs

/-- Membership of a pattern as a contiguous run of a character list. -/
def charsContain (hay pat : List Char) : Bool :=
  if charsStartWith pat hay then true
  else match hay with
    | [] => false
    | _ :: t => charsContain t pat

/-- The Python expression q in s for strings: substring containment. -/
def pyIn (q s : String) : Bool := charsContain s.data q.data

/-- The Python slice l[-n:] for a positive n: the last n elements. -/
def pyLastSlice (l : List α) (n : Nat) : List α := l.drop (l.length - n)

-- ==================== JSON data model ====================

/-- A JSON object: an insertion-ordered list of string fields.  The
items of this application are objects such as name/path records. -/
abbrev Obj := List (String × String)

/-- First-match lookup in an association list (Python dict lookup). -/
def alFind? (m : List (String × β)) (k : String) : Option β :=
  (m.find? (fun p => p.1 == k)).map (·.2)

/-- Python dict membership test: k in m. -/
def alContains (m : List (String × β)) (k : String) : Bool :=
  (alFind? m k).isSome

/-- Python dict.setdefault as a map transformer: insert the default at
the end when the key is absent, otherwise leave the map unchanged. -/
def alEnsure (m : List (String × β)) (k : String) (d : β) : List (String × β) :=
  if alContains m k then m else m ++ [(k, d)]

/-- Replace the value stored under the first occurrence of a key,
keeping its position, as Python in-place mutation of a dict value. -/
def alModify (m : List (String × β)) (k : String) (f : β → β) : List (String × β) :=
  match m with
  | [] => []
  | (k', v) :: rest =>
      if k' == k then (k', f v) :: rest else (k', v) :: alModify rest k f

/-- Python dict assignment m[k] = v: overwrite in place when the key
exists, otherwise append the new binding at the end. -/
def alSet (m : List (String × β)) (k : String) (v : β) : List (String × β) :=
  if alContains m k then alModify m k (fun _ => v) else m ++ [(k, v)]

/-- Python dict.pop / del m[k]: remove the first binding of the key. -/
def alErase (m : List (String × β)) (k : String) : List (String × β) :=
  match m with
  | [] => []
  | (k', v) :: rest => if k' == k then rest else (k', v) :: alErase rest k

/-- Python dict.get with a default, on a JSON object. -/
def objGet (o : Obj) (k d : String) : String :=
  match alFind? o k with
  | some v => v
  | none => d

/-- Python dict.get without default, on a JSON object: optional. -/
def objGet? (o : Obj) (k : String) : Option String := alFind? o k

/-- Python truthiness of a JSON object: nonempty. -/
def objTruthy (o : Obj) : Bool := !o.isEmpty

/-- An entry of a JSON sequence inside a catalogue bucket: either a
JSON object or the JSON null value (None in Python). -/
abbrev BEntry := Option Obj

/-- Python truthiness of a sequence entry: None and the empty object
are falsy, a nonempty object is truthy. -/
def entryTruthy : BEntry → Bool
  | some o => objTruthy o
  | none => false

/-- The value stored under a type key of a nested raw catalogue: a
single item object, an ordered sequence of entries, or JSON null. -/
inductive BucketVal where
  | obj (o : Obj)
  | arr (xs : List BEntry)
  | null
deriving DecidableEq

/-- The type map of one category of a nested raw catalogue. -/
abbrev TypeMap := List (String × BucketVal)

/-- A nested raw catalogue: category to type to bucket value. -/
abbrev NestedMap := List (String × TypeMap)

/-- A raw catalogue as loaded from disk: the flat list shape or the
nested map shape. -/
inductive Raw where
  | flat (xs : List BEntry)
  | nested (m : NestedMap)
deriving DecidableEq

/-- A bucket of the grouped view: the ordered items of one
category/type pair.  The logic variant can leave null entries in a
bucket, hence entries rather than plain objects. -/
abbrev GBucket := List BEntry

/-- The inner map of the grouped view: type to bucket. -/
abbrev GTypeMap := List (String × GBucket)

/-- The grouped view: category to type to ordered items. -/
abbrev Grouped := List (String × GTypeMap)

/-- Result shape of the search filter: category to type to the list
of matching items paired with their index in the unfiltered bucket. -/
abbrev FilteredView := List (String × List (String × List (Nat × BEntry)))

/-- One entry of the configuration directory. -/
structure ConfigEntry where
  name : String
  config_path : String
deriving DecidableEq

/-- One entry of the launch history. -/
structure HistEntry where
  timestamp : String
  name : String
  path : String
  type : String
deriving DecidableEq

/-- The observable state of a catalogue file on disk: absent,
present but not valid JSON, or holding a raw catalogue. -/
inductive CatFile where
  | missing
  | malformed
  | valid (r : Raw)
deriving DecidableEq

/-- Marker for a Python exception escaping an operation. -/
abbrev PyExn := Unit

-- ==================== ToolLauncherLogic (tool_launcher_logic.py) ====================

namespace ToolLauncherLogic

/-- tool_launcher_logic.py, delete_config: keep every config whose
name differs from the argument, persist, return True.  The returned
list is the directory as persisted by save_app_config. -/
def delete_config (configs_list : List ConfigEntry) (name : String) :
    List ConfigEntry × Bool :=
  (configs_list.filter (fun c => c.name != name), true)

/-- tool_launcher_logic.py, load_json (there spelled with a leading
underscore): read the current config file; the bare except branch
creates an empty file when the read or the parse fails, so both a
missing and a malformed file are overwritten with the empty map.
Returns the loaded raw data and the resulting file state. -/
def load_json : CatFile → Raw × CatFile
  | .valid r => (r, .valid r)
  | .missing => (.nested [], .valid (.nested []))
  | .malformed => (.nested [], .valid (.nested []))

/-- Contribution of one bucket value in the dict branch of
tool_launcher_logic.py normalize (there spelled with a leading
underscore): a list value is kept verbatim, a dict value becomes a
one-element list with no truthiness check, anything else gives the
initial empty list. -/
def logicBucket : BucketVal → GBucket
  | .arr xs => xs
  | .obj o => [some o]
  | .null => []

/-- One iteration of the outer loop of the dict branch of normalize:
the category slot is overwritten with a fresh dict, then every type
value is assigned into it. -/
def logicStepNested (g : Grouped) (ce : String × TypeMap) : Grouped :=
  let c := pyLower ce.1
  ce.2.foldl
    (fun g tv => alModify g c (fun tm => alSet tm (pyLower tv.1) (logicBucket tv.2)))
    (alSet g c [])

/-- One iteration of the list branch of normalize: a None element has
no get method, so the iteration raises; otherwise the record is
appended under its lower-cased category and type with defaults. -/
def logicStepFlat (g : Grouped) (e : BEntry) : Except PyExn Grouped :=
  match e with
  | none => .error ()
  | some o =>
      let c := pyLower (objGet o "category" "uncategorized")
      let t := pyLower (objGet o "type" "")
      .ok (alModify (alEnsure g c []) c
        (fun tm => alModify (alEnsure tm t []) t (fun b => b ++ [some o])))

/-- tool_launcher_logic.py, normalize: branch on the raw shape.  The
dict branch is total; the list branch raises on a None record. -/
def normalize : Raw → Except PyExn Grouped
  | .flat xs => xs.foldlM logicStepFlat []
  | .nested m => .ok (m.foldl logicStepNested [])

/-- tool_launcher_logic.py, add_item: validate that all four fields
are truthy, then raw.setdefault(c, dict()).setdefault(t, list())
followed by append.  On a flat list raw structure setdefault does not
exist and an AttributeError escapes; the same happens when the bucket
value is not a list.  On success the mutated raw structure is saved
and the result pair is returned. -/
def add_item (raw : Raw) (cat typ name path : String) :
    Except PyExn (Bool × String × Raw) :=
  if cat = "" ∨ typ = "" ∨ name = "" ∨ path = "" then
    .ok (false, "All fields required", raw)
  else
    match raw with
    | .flat _ => .error ()
    | .nested m =>
        let c := pyLower cat
        let t := pyLower typ
        let m1 := alEnsure m c []
        let tm := (alFind? m1 c).getD []
        let tm1 := alEnsure tm t (.arr [])
        match alFind? tm1 t with
        | some (.arr xs) =>
            .ok (true, "Item added successfully",
              .nested (alSet m1 c
                (alSet tm1 t (.arr (xs ++ [some [("name", name), ("path", path)]])))))
        | _ => .error ()

/-- tool_launcher_logic.py, edit_item: guarded lookup of the bucket,
bounds check on the index, then in-place field assignment.  On a flat
raw structure the membership test is False so the not-found pair is
returned; a dict bucket passes the len check with an integer index and
then raises KeyError; a null bucket raises on len; a None element at
the index raises on subscript assignment.  There is no emptiness
validation of the new name or path. -/
def edit_item (raw : Raw) (cat typ : String) (idx : Int)
    (new_name new_path : String) : Except PyExn (Bool × String × Raw) :=
  let c := pyLower cat
  let t := pyLower typ
  match raw with
  | .flat _ => .ok (false, "Item not found", raw)
  | .nested m =>
      match alFind? m c with
      | none => .ok (false, "Item not found", raw)
      | some tm =>
          match alFind? tm t with
          | none => .ok (false, "Item not found", raw)
          | some (.arr xs) =>
              if h : 0 ≤ idx ∧ idx.toNat < xs.length then
                match xs.get ⟨idx.toNat, h.2⟩ with
                | none => .error ()
                | some o =>
                    let o' := alSet (alSet o "name" new_name) "path" new_path
                    .ok (true, "Item updated successfully",
                      .nested (alSet m c (alSet tm t (.arr (xs.set idx.toNat (some o'))))))
              else .ok (false, "Item not found", raw)
          | some (.obj o) =>
              if 0 ≤ idx ∧ idx.toNat < o.length then .error ()
              else .ok (false, "Item not found", raw)
          | some .null => if 0 ≤ idx then .error () else .ok (false, "Item not found", raw)

/-- tool_launcher_logic.py, delete_item: same bucket lookup and
bounds check, deletion at the index, then cleanup of the emptied type
bucket and category.  The same dynamic failure cases as edit_item
apply to dict and null buckets. -/
def delete_item (raw : Raw) (cat typ : String) (idx : Int) :
    Except PyExn (Bool × Raw) :=
  let c := pyLower cat
  let t := pyLower typ
  match raw with
  | .flat _ => .ok (false, raw)
  | .nested m =>
      match alFind? m c with
      | none => .ok (false, raw)
      | some tm =>
          match alFind? tm t with
          | none => .ok (false, raw)
          | some (.arr xs) =>
              if 0 ≤ idx ∧ idx.toNat < xs.length then
                let xs' := xs.eraseIdx idx.toNat
                let tm' := if xs'.isEmpty then alErase tm t else alSet tm t (.arr xs')
                let m' := if tm'.isEmpty then alErase m c else alSet m c tm'
                .ok (true, .nested m')
              else .ok (false, raw)
          | some (.obj o) =>
              if 0 ≤ idx ∧ idx.toNat < o.length then .error ()
              else .ok (false, raw)
          | some .null => if 0 ≤ idx then .error () else .ok (false, raw)

/-- The per-item match test of get_filtered_items.  The disjunction
short-circuits: with an empty query nothing else is evaluated, and
with a nonempty query a None item raises on the get call. -/
def matchEntry (q : String) (e : BEntry) : Except PyExn Bool :=
  if q = "" then .ok true
  else
    match e with
    | none => .error ()
    | some o =>
        .ok (pyIn q (pyLower (objGet o "name" "")) ||
             pyIn q (pyLower (objGet o "path" "")))

/-- The enumerate-and-filter comprehension of get_filtered_items over
one bucket, carrying the running index. -/
def filterBucket (q : String) : GBucket → Nat → Except PyExn (List (Nat × BEntry))
  | [], _ => .ok []
  | e :: rest, i => do
      let b ← matchEntry q e
      let tail ← filterBucket q rest (i + 1)
      .ok (if b then (i, e) :: tail else tail)

/-- The inner loop of get_filtered_items over the type map of one
category: nonempty match lists are assigned under the category via
setdefault. -/
def filterTypes (q c : String) : GTypeMap → FilteredView → Except PyExn FilteredView
  | [], out => .ok out
  | (t, items) :: rest, out => do
      let ms ← filterBucket q items 0
      let out' := if ms.isEmpty then out
        else alModify (alEnsure out c []) c (fun tm => alSet tm t ms)
      filterTypes q c rest out'

/-- The outer loop of get_filtered_items over the grouped view. -/
def filterCats (q : String) : Grouped → FilteredView → Except PyExn FilteredView
  | [], out => .ok out
  | (c, ts) :: rest, out => do
      let out' ← filterTypes q c ts out
      filterCats q rest out'

/-- tool_launcher_logic.py, get_filtered_items: lower-case the query
and collect, per category and type, the items matching on name or
path, each paired with its index in the unfiltered bucket. -/
def get_filtered_items (grouped_data : Grouped) (query : String) :
    Except PyExn FilteredView :=
  filterCats (pyLower query) grouped_data []

/-- tool_launcher_logic.py, add_to_history (there spelled with a
leading underscore): append the stamped entry, keep the last 50, and
persist.  The timestamp string is passed in for the ambient clock. -/
def add_to_history (launch_history : List HistEntry)
    (timestamp name path typ : String) : List HistEntry :=
  pyLastSlice (launch_history ++ [⟨timestamp, name, path, typ⟩]) 50

/-- tool_launcher_logic.py, load_history (there spelled with a
leading underscore): a missing or unreadable file yields the empty
buffer, a readable one is truncated to its last 50 entries. -/
def load_history : Option (Option (List HistEntry)) → List HistEntry
  | none => []
  | some none => []
  | some (some l) => pyLastSlice l 50

end ToolLauncherLogic

-- ==================== ToolLauncher (ToolLauncer.py) ====================

namespace ToolLauncher

/-- ToolLauncer.py, load_json: FileNotFoundError creates the empty
map on disk and returns it; JSONDecodeError returns the empty map and
leaves the malformed file untouched; a readable file is returned and
left as it is. -/
def load_json : CatFile → Raw × CatFile
  | .valid r => (r, .valid r)
  | .missing => (.nested [], .valid (.nested []))
  | .malformed => (.nested [], .malformed)

/-- Contribution of one bucket value in the dict branch of
ToolLauncer.py normalize_grouped: a truthy single dict is appended as
one item, an empty dict is ignored, a list is extended with its
truthy entries, anything else contributes nothing. -/
def bucketContrib : BucketVal → GBucket
  | .obj o => if objTruthy o then [some o] else []
  | .arr xs => xs.filter entryTruthy
  | .null => []

/-- One iteration of the inner loop of the dict branch of
normalize_grouped for a fixed lower-cased category key: ensure the
lower-cased type key and extend its bucket. -/
def normInnerStep (c : String) (g : Grouped) (tv : String × BucketVal) : Grouped :=
  let t := pyLower tv.1
  alModify g c (fun tm => alModify (alEnsure tm t []) t (fun b => b ++ bucketContrib tv.2))

/-- One iteration of the outer loop of the dict branch of
normalize_grouped: ensure the lower-cased category key, then run the
inner loop over its type map. -/
def normStepNested (g : Grouped) (ce : String × TypeMap) : Grouped :=
  let c := pyLower ce.1
  ce.2.foldl (normInnerStep c) (alEnsure g c [])

/-- One iteration of the list branch of normalize_grouped: falsy
records were dropped by the comprehension, a truthy record is
appended under its lower-cased category and type with defaults. -/
def normFlatStep (g : Grouped) (e : BEntry) : Grouped :=
  match e with
  | some o =>
      if objTruthy o then
        let c := pyLower (objGet o "category" "Uncategorized")
        let t := pyLower (objGet o "type" "")
        alModify (alEnsure g c []) c
          (fun tm => alModify (alEnsure tm t []) t (fun b => b ++ [some o]))
      else g
  | none => g

/-- ToolLauncer.py, normalize_grouped: group either raw shape into
category to type to items, lower-casing keys, dropping falsy records
and falsy bucket entries, keeping insertion order throughout. -/
def normalize_grouped : Raw → Grouped
  | .flat xs => xs.foldl normFlatStep []
  | .nested m => m.foldl normStepNested []

/-- ToolLauncer.py, to_nested: regroup a flat record list into the
nested map shape.  Falsy records are dropped; every kept record is
appended whole under its lower-cased category and type. -/
def to_nested (data_list : List BEntry) : NestedMap :=
  data_list.foldl
    (fun m e =>
      match e with
      | some o =>
          if objTruthy o then
            let c := pyLower (objGet o "category" "Uncategorized")
            let t := pyLower (objGet o "type" "")
            alModify (alEnsure m c []) c
              (fun tm => alModify (alEnsure tm t (.arr []))
                t (fun v => match v with
                  | .arr ys => .arr (ys ++ [some o])
                  | v => v))
          else m
      | none => m)
    []

/-- ToolLauncer.py, submit_add: strip the four sidebar fields,
reject when any is falsy, then either append a full flat record and
save the re-nested list, or insert the name/path item into the nested
map, turning a truthy single dict bucket into a two-element list and
a falsy one into a singleton.  The second component is the raw value
handed to save_json, None when nothing was saved. -/
def submit_add (raw : Raw) (catIn typIn nameIn pathIn : String) :
    Bool × Option Raw :=
  let cat := pyStrip catIn
  let typ := pyStrip typIn
  let name := pyStrip nameIn
  let path := pyStrip pathIn
  if cat = "" ∨ typ = "" ∨ name = "" ∨ path = "" then (false, none)
  else
    match raw with
    | .flat xs =>
        (true, some (.nested (to_nested
          (xs ++ [some [("category", cat), ("type", typ), ("name", name), ("path", path)]]))))
    | .nested m =>
        let c := pyLower cat
        let t := pyLower typ
        let new_item : Obj := [("name", name), ("path", path)]
        let m1 := alEnsure m c []
        let tm := (alFind? m1 c).getD []
        let tm1 := alEnsure tm t (.arr [])
        let existing := (alFind? tm1 t).getD (.arr [])
        let newB : BucketVal :=
          match existing with
          | .arr xs => .arr (xs ++ [some new_item])
          | .obj o => if objTruthy o then .arr [some o, some new_item] else .arr [some new_item]
          | .null => .arr [some new_item]
        (true, some (.nested (alSet m1 c (alSet tm1 t newB))))

/-- The flat-branch loop of ToolLauncer.py submit_edit: find the
first record matching the edit snapshot on lower-cased category and
type and exact name and path, and update its fields in place; a None
record raises on the get call; when nothing matches the list is
returned unchanged. -/
def editFlatLoop (ec et : String) (eitm : Obj) (name path : String) :
    List BEntry → Except PyExn (List BEntry)
  | [] => .ok []
  | none :: _ => .error ()
  | some o :: rest =>
      if pyLower (objGet o "category" "") = pyLower ec ∧
         pyLower (objGet o "type" "") = pyLower et ∧
         objGet? o "name" = objGet? eitm "name" ∧
         objGet? o "path" = objGet? eitm "path" then
        .ok (some (alSet (alSet o "name" name) "path" path) :: rest)
      else do
        let rest' ← editFlatLoop ec et eitm name path rest
        .ok (some o :: rest')

/-- The Python list subscript for a signed index, as used by
submit_edit on the nested bucket: negative indices count from the
end, and an out-of-range index raises IndexError. -/
def pyIdx (i : Int) (n : Nat) : Option Nat :=
  if 0 ≤ i then (if i.toNat < n then some i.toNat else none)
  else (if (-i).toNat ≤ n then some (n - (-i).toNat) else none)

/-- ToolLauncer.py, submit_edit: strip the name and path fields and
reject when either is falsy, leaving everything untouched; otherwise
update the flat list by snapshot matching and save its re-nesting, or
update the nested bucket at the stored index, where a missing key
raises KeyError, an out-of-range index raises IndexError and a single
dict bucket is mutated regardless of the index.  The second component
is the raw value handed to save_json, None when nothing was saved. -/
def submit_edit (raw : Raw) (edit_category edit_type : String)
    (edit_index : Int) (edit_itm : Obj) (nameIn pathIn : String) :
    Except PyExn (Bool × Option Raw) :=
  let name := pyStrip nameIn
  let path := pyStrip pathIn
  if name = "" ∨ path = "" then .ok (false, none)
  else
    match raw with
    | .flat xs => do
        let xs' ← editFlatLoop edit_category edit_type edit_itm name path xs
        .ok (true, some (.nested (to_nested xs')))
    | .nested m =>
        let c := pyLower edit_category
        let t := pyLower edit_type
        match alFind? m c with
        | none => .error ()
        | some tm =>
            match alFind? tm t with
            | none => .error ()
            | some (.arr xs) =>
                match pyIdx edit_index xs.length with
                | none => .error ()
                | some i =>
                    match xs.get? i with
                    | some (some o) =>
                        let o' := alSet (alSet o "name" name) "path" path
                        .ok (true, some (.nested (alSet m c (alSet tm t (.arr (xs.set i (some o')))))))
                    | _ => .error ()
            | some (.obj o) =>
                let o' := alSet (alSet o "name" name) "path" path
                .ok (true, some (.nested (alSet m c (alSet tm t (.obj o')))))
            | some .null => .error ()

end ToolLauncher

-- ==================== ToolLauncherGUI (tool_launcher_gui.py) ====================

namespace ToolLauncherGUI

/-- tool_launcher_gui.py, on_delete_config: when at most one config
remains the dialog refuses and nothing changes; otherwise, once the
user confirms, the logic delete_config removes the selected name.
The confirmed flag models the answer of the confirmation dialog. -/
def on_delete_config (configs_list : List ConfigEntry) (current : String)
    (confirmed : Bool) : List ConfigEntry :=
  if configs_list.length ≤ 1 then configs_list
  else if confirmed then (ToolLauncherLogic.delete_config configs_list current).1
  else configs_list

end ToolLauncherGUI

-- ==================== Derived predicates ====================

/-- Every item of every bucket of a grouped view is truthy: no null
entries and no empty objects. -/
def buckets_truthy (g : Grouped) : Bool :=
  g.all (fun p => p.2.all (fun q => q.2.all entryTruthy))

/-- Every item of every bucket of a grouped view is an object,
possibly empty: no null entries. -/
def buckets_not_null (g : Grouped) : Bool :=
  g.all (fun p => p.2.all (fun q => q.2.all (fun e => e.isSome)))

/-- Every bucket value of a nested raw catalogue is a sequence with
no null entries. -/
def nested_list_buckets (m : NestedMap) : Bool :=
  m.all (fun ce => ce.2.all (fun tv =>
    match tv.2 with
    | .arr xs => xs.all (fun e => e.isSome)
    | _ => false))

/-- The injection of a grouped view back into the nested raw shape:
the grouped view of a nested source is itself a nested mapping whose
bucket values are the item sequences, and the item registry hands
exactly this mapping back to save_json after a nested-source
mutation. -/
def groupedToRaw (g : Grouped) : NestedMap :=
  g.map (fun ce => (ce.1, ce.2.map (fun tv => (tv.1, BucketVal.arr tv.2))))

deriving instance DecidableEq for Except


-- ==================== Helper lemmas on association lists ====================

theorem alFind?_cons (k' : String) (v : β) (rest : List (String × β)) (k : String) :
    alFind? ((k', v) :: rest) k = if k' == k then some v else alFind? rest k := by
  simp only [alFind?, List.find?]
  by_cases h : k' == k
  · simp [h]
  · simp [h]

theorem alContains_cons (k' : String) (v : β) (rest : List (String × β)) (k : String) :
    alContains ((k', v) :: rest) k = ((k' == k) || alContains rest k) := by
  simp only [alContains, alFind?_cons]
  by_cases h : k' == k
  · simp [h]
  · simp [h]

theorem mem_of_alFind?_eq_some {m : List (String × β)} {k : String} {v : β}
    (h : alFind? m k = some v) : (k, v) ∈ m := by
  induction m with
  | nil => simp [alFind?] at h
  | cons p rest ih =>
      obtain ⟨k', v'⟩ := p
      rw [alFind?_cons] at h
      by_cases hk : k' == k
      · simp [hk] at h
        simp_all [beq_iff_eq]
      · simp [hk] at h
        exact List.mem_cons_of_mem _ (ih h)

theorem alContains_eq_false {m : List (String × β)} {k : String}
    (h : alContains m k = false) : alFind? m k = none := by
  cases hf : alFind? m k with
  | none => rfl
  | some v => rw [alContains, hf] at h; simp at h

theorem alFind?_eq_none_not_mem {m : List (String × β)} {k : String}
    (h : alFind? m k = none) : ∀ v, (k, v) ∉ m := by
  induction m with
  | nil => simp
  | cons p rest ih =>
      obtain ⟨k', v'⟩ := p
      rw [alFind?_cons] at h
      by_cases hk : k' == k
      · simp [hk] at h
      · intro v hv
        rw [if_neg hk] at h
        rcases List.mem_cons.mp hv with h1 | h1
        · injection h1 with e1 e2
          exact hk (by simp [e1])
        · exact ih h v h1

theorem not_mem_of_alContains_false {m : List (String × β)} {k : String}
    (h : alContains m k = false) : ∀ v, (k, v) ∉ m :=
  alFind?_eq_none_not_mem (alContains_eq_false h)

theorem alContains_false_not_key {m : List (String × β)} {k : String}
    (h : alContains m k = false) : k ∉ m.map Prod.fst := by
  intro hk
  rcases List.mem_map.mp hk with ⟨p, hp, he⟩
  refine not_mem_of_alContains_false h p.2 ?_
  rw [← he, Prod.mk.eta]
  exact hp

theorem alEnsure_of_not_contains {m : List (String × β)} {k : String} {d : β}
    (h : alContains m k = false) : alEnsure m k d = m ++ [(k, d)] := by
  simp [alEnsure, h]

theorem alEnsure_of_contains {m : List (String × β)} {k : String} {d : β}
    (h : alContains m k = true) : alEnsure m k d = m := by
  simp [alEnsure, h]

theorem alSet_of_not_contains {m : List (String × β)} {k : String} {v : β}
    (h : alContains m k = false) : alSet m k v = m ++ [(k, v)] := by
  simp [alSet, h]

theorem keys_alModify (m : List (String × β)) (k : String) (f : β → β) :
    (alModify m k f).map Prod.fst = m.map Prod.fst := by
  induction m with
  | nil => rfl
  | cons p rest ih =>
      obtain ⟨k', v⟩ := p
      simp only [alModify]
      by_cases hk : k' == k
      · simp [hk]
      · simp [hk, ih]

theorem mem_alModify {m : List (String × β)} {k : String} {f : β → β} {p : String × β}
    (h : p ∈ alModify m k f) : p ∈ m ∨ ∃ v, (k, v) ∈ m ∧ p = (k, f v) := by
  induction m with
  | nil => simp [alModify] at h
  | cons q rest ih =>
      obtain ⟨k', v'⟩ := q
      simp only [alModify] at h
      by_cases hk : (k' == k) = true
      · rw [if_pos hk] at h
        rcases List.mem_cons.mp h with h1 | h1
        · have hkk : k' = k := by simpa [beq_iff_eq] using hk
          subst hkk
          exact Or.inr ⟨v', List.mem_cons_self _ _, h1⟩
        · exact Or.inl (List.mem_cons_of_mem _ h1)
      · rw [if_neg hk] at h
        rcases List.mem_cons.mp h with h1 | h1
        · exact Or.inl (by simp [h1])
        · rcases ih h1 with h2 | ⟨v, hv, hp⟩
          · exact Or.inl (List.mem_cons_of_mem _ h2)
          · exact Or.inr ⟨v, List.mem_cons_of_mem _ hv, hp⟩

theorem mem_alEnsure {m : List (String × β)} {k : String} {d : β} {p : String × β}
    (h : p ∈ alEnsure m k d) : p ∈ m ∨ p = (k, d) := by
  simp only [alEnsure] at h
  by_cases hc : alContains m k
  · rw [if_pos hc] at h
    exact Or.inl h
  · rw [if_neg hc] at h
    rcases List.mem_append.mp h with h1 | h1
    · exact Or.inl h1
    · exact Or.inr (by simpa using h1)

theorem mem_alSet {m : List (String × β)} {k : String} {v : β} {p : String × β}
    (h : p ∈ alSet m k v) : p ∈ m ∨ p = (k, v) := by
  simp only [alSet] at h
  by_cases hc : alContains m k
  · rw [if_pos hc] at h
    rcases mem_alModify h with h1 | ⟨w, _, hp⟩
    · exact Or.inl h1
    · exact Or.inr hp
  · rw [if_neg hc] at h
    rcases List.mem_append.mp h with h1 | h1
    · exact Or.inl h1
    · exact Or.inr (by simpa using h1)

theorem alFind?_append_of_none {m1 : List (String × β)} {k : String}
    (m2 : List (String × β)) (h : alFind? m1 k = none) :
    alFind? (m1 ++ m2) k = alFind? m2 k := by
  induction m1 with
  | nil => rfl
  | cons p rest ih =>
      obtain ⟨k', v⟩ := p
      rw [alFind?_cons] at h
      by_cases hk : k' == k
      · simp [hk] at h
      · rw [if_neg hk] at h
        rw [List.cons_append, alFind?_cons, if_neg hk]
        exact ih h

theorem alFind?_of_mem_nodup {m : List (String × β)} {k : String} {v : β}
    (hn : (m.map Prod.fst).Nodup) (hm : (k, v) ∈ m) : alFind? m k = some v := by
  induction m with
  | nil => simp at hm
  | cons p rest ih =>
      obtain ⟨k', v'⟩ := p
      simp only [List.map_cons] at hn
      rcases List.nodup_cons.mp hn with ⟨hnin, hrest⟩
      rw [alFind?_cons]
      rcases List.mem_cons.mp hm with h1 | h1
      · injection h1 with e1 e2
        rw [if_pos (by simp [e1]), e2]
      · by_cases hk : (k' == k) = true
        · exfalso
          have : k ∈ rest.map Prod.fst := List.mem_map_of_mem Prod.fst h1
          rw [show k' = k from by simpa [beq_iff_eq] using hk] at hnin
          exact hnin this
        · rw [if_neg hk]
          exact ih hrest h1

theorem alModify_append_fresh {m : List (String × β)} {k : String} {v : β}
    (h : alContains m k = false) (f : β → β) :
    alModify (m ++ [(k, v)]) k f = m ++ [(k, f v)] := by
  induction m with
  | nil => simp [alModify]
  | cons p rest ih =>
      obtain ⟨k', v'⟩ := p
      rw [alContains_cons] at h
      rcases Bool.or_eq_false_iff.mp h with ⟨hk, hrest⟩
      rw [List.cons_append, List.cons_append]
      simp only [alModify, hk]
      rw [if_neg (by simp [hk])]
      rw [ih hrest]

theorem nodup_keys_alEnsure {m : List (String × β)} {k : String} {d : β}
    (h : (m.map Prod.fst).Nodup) : ((alEnsure m k d).map Prod.fst).Nodup := by
  by_cases hc : alContains m k
  · rw [alEnsure_of_contains hc]
    exact h
  · rw [alEnsure_of_not_contains (by simpa using hc)]
    rw [List.map_append]
    rw [List.nodup_append]
    exact ⟨h, List.nodup_singleton _,
      fun a ha hb => by
        simp at hb
        subst hb
        exact alContains_false_not_key (by simpa using hc) ha⟩

theorem nodup_keys_alModify {m : List (String × β)} {k : String} {f : β → β}
    (h : (m.map Prod.fst).Nodup) : ((alModify m k f).map Prod.fst).Nodup := by
  rw [keys_alModify]
  exact h

theorem nodup_keys_alSet {m : List (String × β)} {k : String} {v : β}
    (h : (m.map Prod.fst).Nodup) : ((alSet m k v).map Prod.fst).Nodup := by
  by_cases hc : alContains m k
  · simp only [alSet, if_pos hc]
    exact nodup_keys_alModify h
  · rw [alSet_of_not_contains (by simpa using hc)]
    rw [List.map_append, List.nodup_append]
    exact ⟨h, List.nodup_singleton _,
      fun a ha hb => by
        simp at hb
        subst hb
        exact alContains_false_not_key (by simpa using hc) ha⟩

/-- Generic preservation of an invariant along a left fold. -/
theorem foldl_inv {α σ : Type _} {f : σ → α → σ} (P : σ → Prop)
    (step : ∀ s a, P s → P (f s a)) :
    ∀ (l : List α) (s : σ), P s → P (l.foldl f s) := by
  intro l
  induction l with
  | nil => intro s h; exact h
  | cons a t ih =>
      intro s h
      exact ih _ (step s a h)

-- ==================== Claim theorems ====================

/-- C10: delete_config removes every configuration-directory entry whose
name equals the argument exactly, and returns True even when no entry
with that name exists: a missing name is not reported as an error. -/
theorem C10_delete_config_filter_semantics
    (configs_list : List ConfigEntry) (name : String) :
    (ToolLauncherLogic.delete_config configs_list name).2 = true ∧
    ∀ c : ConfigEntry,
      c ∈ (ToolLauncherLogic.delete_config configs_list name).1 ↔
        (c ∈ configs_list ∧ c.name ≠ name) := by
  refine ⟨rfl, fun c => ?_⟩
  simp [ToolLauncherLogic.delete_config, List.mem_filter, bne_iff_ne]

/-- C1 counterexample: on a directory holding exactly one entry the core
delete_config removes it and returns True, rather than returning False
and leaving the directory unchanged as the claim states. -/
theorem C1_cex_delete_config_last_entry :
    ToolLauncherLogic.delete_config [⟨"A", "/a.json"⟩] "A" = ([], true) ∧
    (([], true) : List ConfigEntry × Bool) ≠ ([⟨"A", "/a.json"⟩], false) :=
  ⟨rfl, by decide⟩

/-- C1 (amended): the core delete_config never refuses: it always returns
True and filters out the matching entries regardless of the count.  The
minimum-config guard is enforced by the GUI caller on_delete_config,
which leaves the directory unchanged whenever at most one entry exists,
and otherwise removes the named entry through delete_config and persists
the result. -/
theorem C1_min_config_guard
    (configs_list : List ConfigEntry) (name : String) (confirmed : Bool) :
    (ToolLauncherLogic.delete_config configs_list name).2 = true ∧
    (configs_list.length ≤ 1 →
      ToolLauncherGUI.on_delete_config configs_list name confirmed = configs_list) ∧
    (1 < configs_list.length → confirmed = true →
      ToolLauncherGUI.on_delete_config configs_list name confirmed =
        (ToolLauncherLogic.delete_config configs_list name).1 ∧
      ∀ c : ConfigEntry,
        c ∈ ToolLauncherGUI.on_delete_config configs_list name confirmed ↔
          (c ∈ configs_list ∧ c.name ≠ name)) := by
  refine ⟨rfl, fun h => ?_, fun h hc => ?_⟩
  · simp [ToolLauncherGUI.on_delete_config, h]
  · subst hc
    have hng : ¬ configs_list.length ≤ 1 := not_le.mpr h
    refine ⟨by simp [ToolLauncherGUI.on_delete_config, hng], fun c => ?_⟩
    simp [ToolLauncherGUI.on_delete_config, hng,
      ToolLauncherLogic.delete_config, List.mem_filter, bne_iff_ne]

/-- Witness for C1: the guard at a one-entry directory, and a real
deletion at a two-entry directory. -/
theorem C1_min_config_guard_witness :
    ToolLauncherGUI.on_delete_config [⟨"A", "/a.json"⟩] "A" true = [⟨"A", "/a.json"⟩] ∧
    ToolLauncherGUI.on_delete_config [⟨"A", "/a.json"⟩, ⟨"B", "/b.json"⟩] "A" true =
      (ToolLauncherLogic.delete_config [⟨"A", "/a.json"⟩, ⟨"B", "/b.json"⟩] "A").1 :=
  ⟨(C1_min_config_guard [⟨"A", "/a.json"⟩] "A" true).2.1 (by decide),
   ((C1_min_config_guard [⟨"A", "/a.json"⟩, ⟨"B", "/b.json"⟩] "A" true).2.2 (by decide) rfl).1⟩

/-- C2 counterexample: on a malformed catalogue file the logic-layer
loader overwrites the file with the empty map, contradicting the claim
that a malformed file is never written to. -/
theorem C2_cex_logic_loader_overwrites_malformed :
    ToolLauncherLogic.load_json CatFile.malformed =
      (Raw.nested [], CatFile.valid (Raw.nested [])) ∧
    CatFile.valid (Raw.nested []) ≠ CatFile.malformed :=
  ⟨rfl, by decide⟩

/-- C2 (amended): the monolithic loader load_json indeed returns the
empty map on a malformed file without writing to it and creates the
empty map on disk only for a missing file; the logic-layer loader
instead overwrites the file with the empty map in both the missing and
the malformed case. -/
theorem C2_loader_file_behavior (r : Raw) :
    ToolLauncher.load_json (CatFile.valid r) = (r, CatFile.valid r) ∧
    ToolLauncher.load_json CatFile.malformed = (Raw.nested [], CatFile.malformed) ∧
    ToolLauncher.load_json CatFile.missing = (Raw.nested [], CatFile.valid (Raw.nested [])) ∧
    ToolLauncherLogic.load_json CatFile.malformed =
      (Raw.nested [], CatFile.valid (Raw.nested [])) ∧
    ToolLauncherLogic.load_json CatFile.missing =
      (Raw.nested [], CatFile.valid (Raw.nested [])) :=
  ⟨rfl, rfl, rfl, rfl, rfl⟩

/-- C4 counterexample: at the flat-source scenario input, the saved file
differs from the literal given in the spec, because the appended record
carries category and type fields rather than only name and path. -/
theorem C4_cex_flat_add_scenario_literal :
    (ToolLauncher.submit_add
        (.flat [some [("category", "dev"), ("type", "folder"),
                      ("name", "Proj"), ("path", "/p")]])
        "dev" "folder" "Proj2" "/p2").2 ≠
      some (.nested [("dev", [("folder", .arr
        [some [("category", "dev"), ("type", "folder"),
               ("name", "Proj"), ("path", "/p")],
         some [("name", "Proj2"), ("path", "/p2")]])])]) := by
  decide

/-- C4 (amended): adding to a flat-source catalogue appends a full flat
record, re-nests the whole list and saves the nested result; at the
scenario input the saved file is the re-nesting of the original record
plus the new record, the latter carrying category and type fields. -/
theorem C4_flat_add_saves_renested :
    ToolLauncher.submit_add
        (.flat [some [("category", "dev"), ("type", "folder"),
                      ("name", "Proj"), ("path", "/p")]])
        "dev" "folder" "Proj2" "/p2" =
      (true, some (.nested [("dev", [("folder", .arr
        [some [("category", "dev"), ("type", "folder"),
               ("name", "Proj"), ("path", "/p")],
         some [("category", "dev"), ("type", "folder"),
               ("name", "Proj2"), ("path", "/p2")]])])])) := by
  decide

/-- C6 counterexample: the logic-layer normalize keeps an empty object
bucket value as one grouped item, so an empty object value does
contribute an item to its bucket of the grouped view. -/
theorem C6_cex_logic_normalize_keeps_empty_obj :
    ToolLauncherLogic.normalize (.nested [("a", [("b", .obj [])])]) =
      .ok [("a", [("b", [some []])])] ∧
    ([some []] : GBucket) ≠ [] :=
  ⟨rfl, by decide⟩

/-- C9 counterexample: the logic-layer edit_item accepts an empty new
name and path: it reports success and rewrites the item, instead of
rejecting the edit and leaving the catalogue unchanged. -/
theorem C9_cex_edit_item_accepts_empty :
    ToolLauncherLogic.edit_item
        (.nested [("a", [("b", .arr [some [("name", "old"), ("path", "p")]])])])
        "a" "b" 0 "" "" =
      .ok (true, "Item updated successfully",
        .nested [("a", [("b", .arr [some [("name", ""), ("path", "")]])])]) ∧
    Raw.nested [("a", [("b", .arr [some [("name", ""), ("path", "")]])])] ≠
      Raw.nested [("a", [("b", .arr [some [("name", "old"), ("path", "p")]])])] := by
  exact ⟨by decide, by decide⟩

/-- C9 (amended): the emptiness validation lives in the monolithic
variant: submit_edit strips the entered name and path and, when either
is empty, reports failure and returns without saving, leaving the raw
data, the grouped view and the file on disk unchanged.  The logic-layer
edit_item performs no such validation. -/
theorem C9_submit_edit_rejects_empty (raw : Raw) (ec et : String) (ei : Int)
    (eitm : Obj) (nameIn pathIn : String)
    (h : pyStrip nameIn = "" ∨ pyStrip pathIn = "") :
    ToolLauncher.submit_edit raw ec et ei eitm nameIn pathIn = .ok (false, none) := by
  rcases h with h | h <;> simp [ToolLauncher.submit_edit, h]

/-- Witness for C9: a whitespace name is rejected without a save. -/
theorem C9_submit_edit_rejects_empty_witness :
    ToolLauncher.submit_edit (.nested []) "a" "b" 0 [] " " "x" = .ok (false, none) :=
  C9_submit_edit_rejects_empty (.nested []) "a" "b" 0 [] " " "x" (Or.inl (by decide))

-- ==================== History lemmas and C7 ====================

theorem pyLastSlice_length_le (l : List α) (n : Nat) : (pyLastSlice l n).length ≤ n := by
  simp only [pyLastSlice, List.length_drop]
  omega

theorem pyLastSlice_of_le {l : List α} {n : Nat} (h : l.length ≤ n) :
    pyLastSlice l n = l := by
  simp [pyLastSlice, Nat.sub_eq_zero_of_le h]

theorem pyLastSlice_append_left (l rest : List α) (n : Nat) :
    pyLastSlice (pyLastSlice l n ++ rest) n = pyLastSlice (l ++ rest) n := by
  unfold pyLastSlice
  rw [List.drop_append_eq_append_drop, List.drop_append_eq_append_drop, List.drop_drop]
  congr 1
  · congr 1
    simp only [List.length_append, List.length_drop]
    omega
  · congr 1
    simp only [List.length_append, List.length_drop]
    omega

theorem pyLastSlice_append_ge {l rest : List α} {n : Nat} (h : n ≤ rest.length) :
    pyLastSlice (l ++ rest) n = pyLastSlice rest n := by
  unfold pyLastSlice
  rw [List.drop_append_eq_append_drop]
  rw [List.drop_eq_nil_of_le (by simp only [List.length_append]; omega)]
  rw [List.nil_append]
  congr 1
  simp only [List.length_append]
  omega

theorem add_to_history_length_le (h : List HistEntry) (ts nm pth ty : String) :
    (ToolLauncherLogic.add_to_history h ts nm pth ty).length ≤ 50 :=
  pyLastSlice_length_le _ _

theorem history_fold_eq (calls : List (String × String × String × String)) :
    ∀ h0 : List HistEntry, h0.length ≤ 50 →
      calls.foldl
        (fun h c => ToolLauncherLogic.add_to_history h c.1 c.2.1 c.2.2.1 c.2.2.2) h0 =
      pyLastSlice (h0 ++ calls.map (fun c => ⟨c.1, c.2.1, c.2.2.1, c.2.2.2⟩)) 50 := by
  induction calls with
  | nil =>
      intro h0 hle
      simp [pyLastSlice_of_le hle]
  | cons c cs ih =>
      intro h0 hle
      simp only [List.foldl_cons, List.map_cons]
      rw [ih _ (add_to_history_length_le h0 c.1 c.2.1 c.2.2.1 c.2.2.2)]
      simp only [ToolLauncherLogic.add_to_history]
      rw [pyLastSlice_append_left]
      rw [List.append_assoc, List.singleton_append]

/-- C7: after more than 50 history appends the stored buffer is exactly
the 50 most recent entries in call order, whatever buffer the sequence
started from, and no single append can ever leave more than 50 entries
in the buffer. -/
theorem C7_history_ring_bound
    (h0 : List HistEntry) (calls : List (String × String × String × String)) :
    (∀ (h : List HistEntry) (ts nm pth ty : String),
       (ToolLauncherLogic.add_to_history h ts nm pth ty).length ≤ 50) ∧
    (50 < calls.length →
      calls.foldl
          (fun h c => ToolLauncherLogic.add_to_history h c.1 c.2.1 c.2.2.1 c.2.2.2) h0 =
        pyLastSlice (calls.map (fun c => ⟨c.1, c.2.1, c.2.2.1, c.2.2.2⟩)) 50 ∧
      (calls.foldl
          (fun h c => ToolLauncherLogic.add_to_history h c.1 c.2.1 c.2.2.1 c.2.2.2) h0).length =
        50) := by
  refine ⟨fun h ts nm pth ty => add_to_history_length_le h ts nm pth ty, fun hlen => ?_⟩
  have hmap : 50 ≤ (calls.map (fun c =>
      (⟨c.1, c.2.1, c.2.2.1, c.2.2.2⟩ : HistEntry))).length := by
    simp only [List.length_map]
    omega
  have key : calls.foldl
      (fun h c => ToolLauncherLogic.add_to_history h c.1 c.2.1 c.2.2.1 c.2.2.2) h0 =
      pyLastSlice (calls.map (fun c => ⟨c.1, c.2.1, c.2.2.1, c.2.2.2⟩)) 50 := by
    cases calls with
    | nil => simp at hlen
    | cons c cs =>
        simp only [List.foldl_cons]
        rw [history_fold_eq cs _ (add_to_history_length_le h0 c.1 c.2.1 c.2.2.1 c.2.2.2)]
        simp only [ToolLauncherLogic.add_to_history]
        rw [pyLastSlice_append_left, List.append_assoc, List.singleton_append]
        rw [← List.map_cons (fun c => (⟨c.1, c.2.1, c.2.2.1, c.2.2.2⟩ : HistEntry)) c cs]
        exact pyLastSlice_append_ge hmap
  refine ⟨key, ?_⟩
  rw [key]
  simp only [pyLastSlice, List.length_drop]
  simp only [List.length_map] at hmap ⊢
  omega

/-- Witness for C7: 51 identical appends from the empty buffer leave
exactly the last 50 stamped entries. -/
theorem C7_history_ring_bound_witness :
    (List.replicate 51 (("t", "n", "p", "y") : String × String × String × String)).foldl
        (fun h c => ToolLauncherLogic.add_to_history h c.1 c.2.1 c.2.2.1 c.2.2.2) [] =
      pyLastSlice
        ((List.replicate 51 (("t", "n", "p", "y") : String × String × String × String)).map
          (fun c => ⟨c.1, c.2.1, c.2.2.1, c.2.2.2⟩)) 50 :=
  ((C7_history_ring_bound [] _).2 (by decide)).1


-- ==================== Truthiness invariant of normalize_grouped ====================

theorem bucketContrib_truthy {v : BucketVal} :
    ∀ e ∈ ToolLauncher.bucketContrib v, entryTruthy e = true := by
  intro e he
  cases v with
  | obj o =>
      simp only [ToolLauncher.bucketContrib] at he
      by_cases h : objTruthy o
      · rw [if_pos h] at he
        simp at he
        subst he
        simpa [entryTruthy] using h
      · rw [if_neg h] at he
        simp at he
  | arr xs =>
      simp only [ToolLauncher.bucketContrib] at he
      exact List.of_mem_filter he
  | null => simp [ToolLauncher.bucketContrib] at he

theorem truthy_alEnsure_cat {g : Grouped} {c : String}
    (hg : ∀ p ∈ g, ∀ q ∈ p.2, ∀ e ∈ q.2, entryTruthy e = true) :
    ∀ p ∈ alEnsure g c ([] : GTypeMap), ∀ q ∈ p.2, ∀ e ∈ q.2, entryTruthy e = true := by
  intro p hp
  rcases mem_alEnsure hp with h | h
  · exact hg p h
  · rw [h]
    intro q hq
    simp at hq

theorem truthy_modify_bucket {g : Grouped} {c t : String} {xs : GBucket}
    (hg : ∀ p ∈ g, ∀ q ∈ p.2, ∀ e ∈ q.2, entryTruthy e = true)
    (hxs : ∀ e ∈ xs, entryTruthy e = true) :
    ∀ p ∈ alModify g c
        (fun tm => alModify (alEnsure tm t []) t (fun b => b ++ xs)),
      ∀ q ∈ p.2, ∀ e ∈ q.2, entryTruthy e = true := by
  intro p hp
  rcases mem_alModify hp with h | ⟨tm, htm, hpe⟩
  · exact hg p h
  · have htmQ : ∀ q ∈ tm, ∀ e ∈ q.2, entryTruthy e = true := hg _ htm
    rw [hpe]
    intro q hq e he
    rcases mem_alModify hq with h1 | ⟨b, hb, hqe⟩
    · rcases mem_alEnsure h1 with h2 | h2
      · exact htmQ q h2 e he
      · rw [h2] at he
        simp at he
    · have hbT : ∀ e ∈ b, entryTruthy e = true := by
        rcases mem_alEnsure hb with h2 | h2
        · exact htmQ _ h2
        · intro e' he'
          injection h2 with e1 e2
          rw [e2] at he'
          simp at he'
      rw [hqe] at he
      rcases List.mem_append.mp he with h3 | h3
      · exact hbT e h3
      · exact hxs e h3

theorem truthy_normInnerStep {g : Grouped} {c : String} (tv : String × BucketVal)
    (hg : ∀ p ∈ g, ∀ q ∈ p.2, ∀ e ∈ q.2, entryTruthy e = true) :
    ∀ p ∈ ToolLauncher.normInnerStep c g tv, ∀ q ∈ p.2, ∀ e ∈ q.2,
      entryTruthy e = true := by
  simpa only [ToolLauncher.normInnerStep] using
    truthy_modify_bucket hg (bucketContrib_truthy (v := tv.2))

theorem truthy_normStepNested {g : Grouped} (ce : String × TypeMap)
    (hg : ∀ p ∈ g, ∀ q ∈ p.2, ∀ e ∈ q.2, entryTruthy e = true) :
    ∀ p ∈ ToolLauncher.normStepNested g ce, ∀ q ∈ p.2, ∀ e ∈ q.2,
      entryTruthy e = true := by
  simp only [ToolLauncher.normStepNested]
  exact foldl_inv
    (fun g' : Grouped => ∀ p ∈ g', ∀ q ∈ p.2, ∀ e ∈ q.2, entryTruthy e = true)
    (fun g' tv h => truthy_normInnerStep tv h)
    ce.2 _ (truthy_alEnsure_cat hg)

theorem truthy_normFlatStep {g : Grouped} (e0 : BEntry)
    (hg : ∀ p ∈ g, ∀ q ∈ p.2, ∀ e ∈ q.2, entryTruthy e = true) :
    ∀ p ∈ ToolLauncher.normFlatStep g e0, ∀ q ∈ p.2, ∀ e ∈ q.2,
      entryTruthy e = true := by
  cases e0 with
  | none => simpa [ToolLauncher.normFlatStep] using hg
  | some o =>
      simp only [ToolLauncher.normFlatStep]
      by_cases h : objTruthy o
      · rw [if_pos h]
        refine truthy_modify_bucket (truthy_alEnsure_cat hg) ?_
        intro e he
        simp at he
        subst he
        simpa [entryTruthy] using h
      · rw [if_neg h]
        exact hg

/-- C6 (amended): normalization in the monolithic variant drops falsy
values: every item of every bucket of a normalize_grouped view is a
nonempty object, so an empty object value contributes no item, an empty
sequence contributes no items, and null entries of a sequence are
skipped, as the three sample equations show.  The logic-layer variant
normalize keeps them instead (see the counterexample). -/
theorem C6_normalize_grouped_drops_falsy (r : Raw) :
    buckets_truthy (ToolLauncher.normalize_grouped r) = true ∧
    ToolLauncher.normalize_grouped (.nested [("a", [("b", .obj [])])]) =
      [("a", [("b", [])])] ∧
    ToolLauncher.normalize_grouped (.nested [("a", [("b", .arr [])])]) =
      [("a", [("b", [])])] ∧
    ToolLauncher.normalize_grouped
        (.nested [("a", [("b", .arr [none, some [("name", "x")], none])])]) =
      [("a", [("b", [some [("name", "x")]])])] := by
  refine ⟨?_, by decide, by decide, by decide⟩
  have key : ∀ p ∈ ToolLauncher.normalize_grouped r, ∀ q ∈ p.2, ∀ e ∈ q.2,
      entryTruthy e = true := by
    cases r with
    | flat xs =>
        simp only [ToolLauncher.normalize_grouped]
        exact foldl_inv
          (fun g' : Grouped => ∀ p ∈ g', ∀ q ∈ p.2, ∀ e ∈ q.2, entryTruthy e = true)
          (fun g' e h => truthy_normFlatStep e h) xs [] (by simp)
    | nested m =>
        simp only [ToolLauncher.normalize_grouped]
        exact foldl_inv
          (fun g' : Grouped => ∀ p ∈ g', ∀ q ∈ p.2, ∀ e ∈ q.2, entryTruthy e = true)
          (fun g' ce h => truthy_normStepNested ce h) m [] (by simp)
  simp only [buckets_truthy, List.all_eq_true]
  intro p hp
  exact key p hp

-- ==================== C3: operations return indicators ====================

theorem foldl_inv_mem {α σ : Type _} {f : σ → α → σ} (P : σ → Prop) :
    ∀ l : List α, (∀ s a, a ∈ l → P s → P (f s a)) → ∀ s, P s → P (l.foldl f s) := by
  intro l
  induction l with
  | nil => intro _ s h; exact h
  | cons a t ih =>
      intro hstep s h
      exact ih (fun s' a' ha' => hstep s' a' (List.mem_cons_of_mem _ ha')) _
        (hstep s a (List.mem_cons_self _ _) h)

theorem alFind?_of_alContains {m : List (String × β)} {k : String}
    (h : alContains m k = true) : ∃ v, alFind? m k = some v := by
  rcases hf : alFind? m k with _ | v
  · rw [alContains, hf] at h
    simp at h
  · exact ⟨v, rfl⟩

theorem nested_buckets_arr {m : NestedMap} (hm : nested_list_buckets m = true)
    {c : String} {tm : TypeMap} (htm : (c, tm) ∈ m) {t : String} {v : BucketVal}
    (hv : (t, v) ∈ tm) : ∃ xs, v = .arr xs ∧ ∀ e ∈ xs, e.isSome = true := by
  simp only [nested_list_buckets, List.all_eq_true] at hm
  have h1 := hm (c, tm) htm (t, v) hv
  cases v with
  | arr xs => exact ⟨xs, rfl, by simpa [List.all_eq_true] using h1⟩
  | obj o => simp at h1
  | null => simp at h1

theorem getD_ensure_buckets {m : NestedMap} (hm : nested_list_buckets m = true)
    (c : String) :
    ∀ t v, (t, v) ∈ (alFind? (alEnsure m c []) c).getD [] →
      ∃ xs, v = .arr xs ∧ ∀ e ∈ xs, e.isSome = true := by
  intro t v hv
  by_cases hc : alContains m c
  · rw [alEnsure_of_contains hc] at hv
    rcases alFind?_of_alContains hc with ⟨tm0, hf⟩
    rw [hf] at hv
    simp only [Option.getD_some] at hv
    exact nested_buckets_arr hm (mem_of_alFind?_eq_some hf) hv
  · rw [alEnsure_of_not_contains (by simpa using hc)] at hv
    rw [alFind?_append_of_none _ (alContains_eq_false (by simpa using hc))] at hv
    simp [alFind?_cons] at hv

theorem find_ensure_arr {tm : TypeMap}
    (htm : ∀ t v, (t, v) ∈ tm → ∃ xs, v = .arr xs ∧ ∀ e ∈ xs, e.isSome = true)
    (t : String) :
    ∃ xs, alFind? (alEnsure tm t (.arr [])) t = some (.arr xs) := by
  by_cases hc : alContains tm t
  · rw [alEnsure_of_contains hc]
    rcases alFind?_of_alContains hc with ⟨v, hv⟩
    rcases htm t v (mem_of_alFind?_eq_some hv) with ⟨xs, rfl, _⟩
    exact ⟨xs, hv⟩
  · rw [alEnsure_of_not_contains (by simpa using hc)]
    refine ⟨[], ?_⟩
    rw [alFind?_append_of_none _ (alContains_eq_false (by simpa using hc))]
    simp [alFind?_cons]

theorem add_item_ok {m : NestedMap} (hm : nested_list_buckets m = true)
    (cat typ name path : String) :
    ∃ r, ToolLauncherLogic.add_item (.nested m) cat typ name path = .ok r := by
  unfold ToolLauncherLogic.add_item
  by_cases hval : cat = "" ∨ typ = "" ∨ name = "" ∨ path = ""
  · rw [if_pos hval]
    exact ⟨_, rfl⟩
  · rw [if_neg hval]
    rcases find_ensure_arr (getD_ensure_buckets hm (pyLower cat)) (pyLower typ) with
      ⟨xs, hfind⟩
    exact ⟨_, by simp only [hfind]; rfl⟩

theorem edit_item_ok {m : NestedMap} (hm : nested_list_buckets m = true)
    (cat typ : String) (idx : Int) (nn np : String) :
    ∃ r, ToolLauncherLogic.edit_item (.nested m) cat typ idx nn np = .ok r := by
  unfold ToolLauncherLogic.edit_item
  rcases hfc : alFind? m (pyLower cat) with _ | tm
  · exact ⟨_, by simp only [hfc]; rfl⟩
  · rcases hft : alFind? tm (pyLower typ) with _ | v
    · exact ⟨_, by simp only [hfc, hft]; rfl⟩
    · rcases nested_buckets_arr hm (mem_of_alFind?_eq_some hfc)
        (mem_of_alFind?_eq_some hft) with ⟨xs, rfl, hxs⟩
      by_cases hidx : 0 ≤ idx ∧ idx.toNat < xs.length
      · have hmem : xs.get ⟨idx.toNat, hidx.2⟩ ∈ xs := xs.get_mem _ _
        have hsome := hxs _ hmem
        rcases ho : xs.get ⟨idx.toNat, hidx.2⟩ with _ | o
        · rw [ho] at hsome
          simp at hsome
        · exact ⟨_, by simp only [hfc, hft, dif_pos hidx, ho]; rfl⟩
      · exact ⟨_, by simp only [hfc, hft, dif_neg hidx]; rfl⟩

theorem delete_item_ok {m : NestedMap} (hm : nested_list_buckets m = true)
    (cat typ : String) (idx : Int) :
    ∃ r, ToolLauncherLogic.delete_item (.nested m) cat typ idx = .ok r := by
  unfold ToolLauncherLogic.delete_item
  rcases hfc : alFind? m (pyLower cat) with _ | tm
  · exact ⟨_, by simp only [hfc]; rfl⟩
  · rcases hft : alFind? tm (pyLower typ) with _ | v
    · exact ⟨_, by simp only [hfc, hft]; rfl⟩
    · rcases nested_buckets_arr hm (mem_of_alFind?_eq_some hfc)
        (mem_of_alFind?_eq_some hft) with ⟨xs, rfl, _⟩
      by_cases hidx : 0 ≤ idx ∧ idx.toNat < xs.length
      · exact ⟨_, by simp only [hfc, hft, if_pos hidx]; rfl⟩
      · exact ⟨_, by simp only [hfc, hft, if_neg hidx]; rfl⟩

theorem notnull_alSet_empty {g : Grouped} {c : String}
    (hg : ∀ p ∈ g, ∀ q ∈ p.2, ∀ e ∈ q.2, e.isSome = true) :
    ∀ p ∈ alSet g c ([] : GTypeMap), ∀ q ∈ p.2, ∀ e ∈ q.2, e.isSome = true := by
  intro p hp
  rcases mem_alSet hp with h | h
  · exact hg p h
  · rw [h]
    intro q hq
    simp at hq

theorem notnull_modify_set_bucket {g : Grouped} {c t : String} {b : GBucket}
    (hg : ∀ p ∈ g, ∀ q ∈ p.2, ∀ e ∈ q.2, e.isSome = true)
    (hb : ∀ e ∈ b, e.isSome = true) :
    ∀ p ∈ alModify g c (fun tm => alSet tm t b), ∀ q ∈ p.2, ∀ e ∈ q.2,
      e.isSome = true := by
  intro p hp
  rcases mem_alModify hp with h | ⟨tm, htm, hpe⟩
  · exact hg p h
  · rw [hpe]
    intro q hq e he
    rcases mem_alSet hq with h1 | h1
    · exact hg _ htm q h1 e he
    · rw [h1] at he
      exact hb e he

theorem notnull_logicStepNested {g : Grouped} {ce : String × TypeMap}
    (hce : ∀ t v, (t, v) ∈ ce.2 → ∃ xs, v = .arr xs ∧ ∀ e ∈ xs, e.isSome = true)
    (hg : ∀ p ∈ g, ∀ q ∈ p.2, ∀ e ∈ q.2, e.isSome = true) :
    ∀ p ∈ ToolLauncherLogic.logicStepNested g ce, ∀ q ∈ p.2, ∀ e ∈ q.2,
      e.isSome = true := by
  simp only [ToolLauncherLogic.logicStepNested]
  refine foldl_inv_mem
    (fun g' : Grouped => ∀ p ∈ g', ∀ q ∈ p.2, ∀ e ∈ q.2, e.isSome = true)
    ce.2 ?_ _ (notnull_alSet_empty hg)
  intro g' tv htv hg'
  rcases hce tv.1 tv.2 (by rw [Prod.mk.eta]; exact htv) with ⟨xs, hxs, hxsSome⟩
  refine notnull_modify_set_bucket hg' ?_
  rw [hxs]
  simpa [ToolLauncherLogic.logicBucket] using hxsSome

theorem normalize_nested_ok {m : NestedMap} (hm : nested_list_buckets m = true) :
    ∃ g, ToolLauncherLogic.normalize (.nested m) = .ok g ∧
      buckets_not_null g = true := by
  refine ⟨_, rfl, ?_⟩
  have key : ∀ p ∈ m.foldl ToolLauncherLogic.logicStepNested [], ∀ q ∈ p.2,
      ∀ e ∈ q.2, e.isSome = true := by
    refine foldl_inv_mem
      (fun g' : Grouped => ∀ p ∈ g', ∀ q ∈ p.2, ∀ e ∈ q.2, e.isSome = true)
      m ?_ [] (by simp)
    intro g' ce hce hg'
    refine notnull_logicStepNested ?_ hg'
    intro t v htv
    exact nested_buckets_arr hm hce htv
  simp only [buckets_not_null, List.all_eq_true]
  intro p hp
  exact key p hp

theorem matchEntry_some_ok (q : String) (o : Obj) :
    ∃ b, ToolLauncherLogic.matchEntry q (some o) = .ok b := by
  unfold ToolLauncherLogic.matchEntry
  by_cases hq : q = ""
  · rw [if_pos hq]
    exact ⟨_, rfl⟩
  · rw [if_neg hq]
    exact ⟨_, rfl⟩

theorem filterBucket_ok {q : String} :
    ∀ {items : GBucket}, (∀ e ∈ items, e.isSome = true) → ∀ i : Nat,
      ∃ ms, ToolLauncherLogic.filterBucket q items i = .ok ms := by
  intro items
  induction items with
  | nil => exact fun _ i => ⟨[], rfl⟩
  | cons e rest ih =>
      intro h i
      have he : e.isSome = true := h e (List.mem_cons_self _ _)
      obtain ⟨o, rfl⟩ := Option.isSome_iff_exists.mp he
      obtain ⟨b, hb⟩ := matchEntry_some_ok q o
      obtain ⟨ms, hms⟩ := ih (fun e' he' => h e' (List.mem_cons_of_mem _ he')) (i + 1)
      refine ⟨if b then (i, some o) :: ms else ms, ?_⟩
      show (ToolLauncherLogic.matchEntry q (some o) >>= fun b =>
          ToolLauncherLogic.filterBucket q rest (i + 1) >>= fun tail =>
            Except.ok (if b then (i, some o) :: tail else tail)) =
        Except.ok (if b then (i, some o) :: ms else ms)
      rw [hb, hms]
      rfl

theorem filterTypes_ok {q c : String} :
    ∀ {ts : GTypeMap}, (∀ p ∈ ts, ∀ e ∈ p.2, e.isSome = true) → ∀ out : FilteredView,
      ∃ out', ToolLauncherLogic.filterTypes q c ts out = .ok out' := by
  intro ts
  induction ts with
  | nil => exact fun _ out => ⟨out, rfl⟩
  | cons p rest ih =>
      intro h out
      obtain ⟨t, items⟩ := p
      obtain ⟨ms, hms⟩ := filterBucket_ok
        (fun e he => h (t, items) (List.mem_cons_self _ _) e he) 0
      obtain ⟨out', hout'⟩ := ih (fun p' hp' => h p' (List.mem_cons_of_mem _ hp'))
        (if ms.isEmpty then out
          else alModify (alEnsure out c []) c (fun tm => alSet tm t ms))
      refine ⟨out', ?_⟩
      show (ToolLauncherLogic.filterBucket q items 0 >>= fun ms =>
          ToolLauncherLogic.filterTypes q c rest
            (if ms.isEmpty then out
              else alModify (alEnsure out c []) c (fun tm => alSet tm t ms))) =
        Except.ok out'
      rw [hms]
      exact hout'

theorem filterCats_ok {q : String} :
    ∀ {g : Grouped}, (∀ p ∈ g, ∀ r ∈ p.2, ∀ e ∈ r.2, e.isSome = true) →
      ∀ out : FilteredView, ∃ out', ToolLauncherLogic.filterCats q g out = .ok out' := by
  intro g
  induction g with
  | nil => exact fun _ out => ⟨out, rfl⟩
  | cons p rest ih =>
      intro h out
      obtain ⟨c, ts⟩ := p
      obtain ⟨out1, hout1⟩ := filterTypes_ok
        (fun r hr e he => h (c, ts) (List.mem_cons_self _ _) r hr e he) out
      obtain ⟨out', hout'⟩ := ih (fun p' hp' => h p' (List.mem_cons_of_mem _ hp')) out1
      refine ⟨out', ?_⟩
      show (ToolLauncherLogic.filterTypes q c ts out >>= fun out1 =>
          ToolLauncherLogic.filterCats q rest out1) = Except.ok out'
      rw [hout1]
      exact hout'

theorem get_filtered_items_ok {g : Grouped} (hg : buckets_not_null g = true)
    (query : String) :
    ∃ out, ToolLauncherLogic.get_filtered_items g query = .ok out := by
  refine filterCats_ok ?_ []
  simp only [buckets_not_null, List.all_eq_true] at hg
  exact hg

/-- C3 counterexample: on a flat-list raw catalogue the logic-layer
add_item raises (the raw list has no setdefault method), so an
exception does escape a public core operation. -/
theorem C3_cex_add_item_flat_raises :
    ToolLauncherLogic.add_item
        (.flat [some [("category", "dev"), ("type", "folder"),
                      ("name", "P"), ("path", "/p")]])
        "dev" "folder" "N" "/n" = .error () := by
  decide

/-- C3 (amended): on a nested-map catalogue whose bucket values are
null-free sequences, the item operations and the search filter of the
logic layer return their result indicators and no exception escapes,
with disk writes modelled as succeeding; config, history and loader
operations are total by construction.  On a flat-list catalogue,
however, add_item raises AttributeError (see the counterexample), and
single-object or null bucket values make edit and delete raise. -/
theorem C3_ops_return_indicators
    (m : NestedMap) (cat typ name path query : String) (idx : Int) (g : Grouped)
    (hm : nested_list_buckets m = true) (hg : buckets_not_null g = true) :
    (∃ r, ToolLauncherLogic.add_item (.nested m) cat typ name path = .ok r) ∧
    (∃ r, ToolLauncherLogic.edit_item (.nested m) cat typ idx name path = .ok r) ∧
    (∃ r, ToolLauncherLogic.delete_item (.nested m) cat typ idx = .ok r) ∧
    (∃ g', ToolLauncherLogic.normalize (.nested m) = .ok g' ∧
      buckets_not_null g' = true) ∧
    (∃ out, ToolLauncherLogic.get_filtered_items g query = .ok out) :=
  ⟨add_item_ok hm cat typ name path,
   edit_item_ok hm cat typ idx name path,
   delete_item_ok hm cat typ idx,
   normalize_nested_ok hm,
   get_filtered_items_ok hg query⟩

/-- Witness for C3: the amended guarantees at a concrete one-item
nested catalogue and its grouped view. -/
theorem C3_ops_return_indicators_witness :
    (∃ r, ToolLauncherLogic.add_item
      (.nested [("a", [("b", .arr [some [("name", "n"), ("path", "p")]])])])
      "a" "b" "x" "y" = .ok r) ∧
    (∃ r, ToolLauncherLogic.edit_item
      (.nested [("a", [("b", .arr [some [("name", "n"), ("path", "p")]])])])
      "a" "b" 0 "x" "y" = .ok r) ∧
    (∃ r, ToolLauncherLogic.delete_item
      (.nested [("a", [("b", .arr [some [("name", "n"), ("path", "p")]])])])
      "a" "b" 0 = .ok r) ∧
    (∃ g', ToolLauncherLogic.normalize
      (.nested [("a", [("b", .arr [some [("name", "n"), ("path", "p")]])])]) = .ok g' ∧
      buckets_not_null g' = true) ∧
    (∃ out, ToolLauncherLogic.get_filtered_items
      [("a", [("b", [some [("name", "n"), ("path", "p")]])])] "n" = .ok out) :=
  C3_ops_return_indicators
    [("a", [("b", .arr [some [("name", "n"), ("path", "p")]])])]
    "a" "b" "x" "y" "n" 0
    [("a", [("b", [some [("name", "n"), ("path", "p")]])])]
    (by decide) (by decide)

-- ==================== C8: index stability under filter ====================

theorem except_bind_ok_iff {α γ : Type _} {x : Except PyExn α} {f : α → Except PyExn γ}
    {r : γ} : (x >>= f) = .ok r ↔ ∃ a, x = .ok a ∧ f a = .ok r := by
  cases x with
  | error e =>
      constructor
      · intro h
        exact absurd h (by simp [Bind.bind, Except.bind])
      · rintro ⟨a, ha, _⟩
        exact absurd ha (by simp)
  | ok a =>
      constructor
      · intro h
        exact ⟨a, rfl, h⟩
      · rintro ⟨a', ha, hf⟩
        rw [show a' = a from by simpa using ha.symm] at hf
        exact hf

theorem filterBucket_spec {q : String} :
    ∀ {items : GBucket} {n : Nat} {ms : List (Nat × BEntry)},
      ToolLauncherLogic.filterBucket q items n = .ok ms →
      ∀ i it, (i, it) ∈ ms → n ≤ i ∧ items.get? (i - n) = some it := by
  intro items
  induction items with
  | nil =>
      intro n ms h i it hmem
      simp only [ToolLauncherLogic.filterBucket] at h
      rcases h
      simp at hmem
  | cons e rest ih =>
      intro n ms h i it hmem
      have h' : (ToolLauncherLogic.matchEntry q e >>= fun b =>
          ToolLauncherLogic.filterBucket q rest (n + 1) >>= fun tail =>
            Except.ok (if b then (n, e) :: tail else tail)) = Except.ok ms := h
      rcases except_bind_ok_iff.mp h' with ⟨b, hb, h2⟩
      rcases except_bind_ok_iff.mp h2 with ⟨tail, htail, h3⟩
      have hms : ms = if b then (n, e) :: tail else tail := by
        cases h3
        rfl
      subst hms
      by_cases hbv : b = true
      · rw [if_pos hbv] at hmem
        rcases List.mem_cons.mp hmem with h4 | h4
        · injection h4 with e1 e2
          subst e1
          subst e2
          refine ⟨Nat.le_refl _, ?_⟩
          simp
        · rcases ih htail i it h4 with ⟨hle, hget⟩
          refine ⟨Nat.le_of_succ_le hle, ?_⟩
          have harith : i - n = (i - (n + 1)) + 1 := by omega
          rw [harith]
          simpa using hget
      · rw [if_neg hbv] at hmem
        rcases ih htail i it hmem with ⟨hle, hget⟩
        refine ⟨Nat.le_of_succ_le hle, ?_⟩
        have harith : i - n = (i - (n + 1)) + 1 := by omega
        rw [harith]
        simpa using hget

theorem filterTypes_spec {q : String} {g : Grouped} {c : String} {tmFull : GTypeMap}
    (hcg : alFind? g c = some tmFull) :
    ∀ {ts : GTypeMap} {out out' : FilteredView},
      (∀ p ∈ ts, alFind? tmFull p.1 = some p.2) →
      (∀ c0 ts0, (c0, ts0) ∈ out → ∀ t0 ms0, (t0, ms0) ∈ ts0 → ∀ i it, (i, it) ∈ ms0 →
        ∃ tm b, alFind? g c0 = some tm ∧ alFind? tm t0 = some b ∧ b.get? i = some it) →
      ToolLauncherLogic.filterTypes q c ts out = .ok out' →
      (∀ c0 ts0, (c0, ts0) ∈ out' → ∀ t0 ms0, (t0, ms0) ∈ ts0 → ∀ i it, (i, it) ∈ ms0 →
        ∃ tm b, alFind? g c0 = some tm ∧ alFind? tm t0 = some b ∧ b.get? i = some it) := by
  intro ts
  induction ts with
  | nil =>
      intro out out' _ hinv h
      cases h
      exact hinv
  | cons p rest ih =>
      intro out out' hts hinv h
      obtain ⟨t, items⟩ := p
      have h' : (ToolLauncherLogic.filterBucket q items 0 >>= fun ms =>
          ToolLauncherLogic.filterTypes q c rest
            (if ms.isEmpty then out
              else alModify (alEnsure out c []) c (fun tm => alSet tm t ms))) =
          Except.ok out' := h
      rcases except_bind_ok_iff.mp h' with ⟨ms, hms, h2⟩
      refine ih (fun p' hp' => hts p' (List.mem_cons_of_mem _ hp')) ?_ h2
      by_cases hemp : ms.isEmpty
      · rw [if_pos hemp]
        exact hinv
      · rw [if_neg hemp]
        intro c0 ts0 hmem t0 ms0 hmem2 i it hmem3
        rcases mem_alModify hmem with h3 | ⟨tm', htm', hpe⟩
        · rcases mem_alEnsure h3 with h4 | h4
          · exact hinv c0 ts0 h4 t0 ms0 hmem2 i it hmem3
          · injection h4 with e1 e2
            rw [e2] at hmem2
            simp at hmem2
        · injection hpe with e1 e2
          subst e1
          rw [e2] at hmem2
          rcases mem_alSet hmem2 with h5 | h5
          · rcases mem_alEnsure htm' with h6 | h6
            · exact hinv c0 tm' h6 t0 ms0 h5 i it hmem3
            · injection h6 with e3 e4
              rw [e4] at h5
              simp at h5
          · injection h5 with e3 e4
            subst e3
            rw [e4] at hmem3
            rcases filterBucket_spec hms i it hmem3 with ⟨_, hget⟩
            refine ⟨tmFull, items, hcg, hts (t0, items) (List.mem_cons_self _ _), ?_⟩
            simpa using hget

theorem filterCats_spec {q : String} {g : Grouped} :
    ∀ {rest : Grouped} {out out' : FilteredView},
      (∀ p ∈ rest, alFind? g p.1 = some p.2 ∧
        ∀ p2 ∈ p.2, alFind? p.2 p2.1 = some p2.2) →
      (∀ c0 ts0, (c0, ts0) ∈ out → ∀ t0 ms0, (t0, ms0) ∈ ts0 → ∀ i it, (i, it) ∈ ms0 →
        ∃ tm b, alFind? g c0 = some tm ∧ alFind? tm t0 = some b ∧ b.get? i = some it) →
      ToolLauncherLogic.filterCats q rest out = .ok out' →
      (∀ c0 ts0, (c0, ts0) ∈ out' → ∀ t0 ms0, (t0, ms0) ∈ ts0 → ∀ i it, (i, it) ∈ ms0 →
        ∃ tm b, alFind? g c0 = some tm ∧ alFind? tm t0 = some b ∧ b.get? i = some it) := by
  intro rest
  induction rest with
  | nil =>
      intro out out' _ hinv h
      cases h
      exact hinv
  | cons p rest' ih =>
      intro out out' hrest hinv h
      obtain ⟨c0, ts0⟩ := p
      have h' : (ToolLauncherLogic.filterTypes q c0 ts0 out >>= fun out1 =>
          ToolLauncherLogic.filterCats q rest' out1) = Except.ok out' := h
      rcases except_bind_ok_iff.mp h' with ⟨out1, hout1, h2⟩
      rcases hrest (c0, ts0) (List.mem_cons_self _ _) with ⟨hfg, hfts⟩
      refine ih (fun p' hp' => hrest p' (List.mem_cons_of_mem _ hp')) ?_ h2
      exact filterTypes_spec hfg (fun p2 hp2 => hfts p2 hp2) hinv hout1

/-- C8: every index and item pair returned by get_filtered_items
addresses the very item at that index in the unfiltered bucket of the
grouped view, for every grouped view with Python-dict keys (no
duplicates) and every query, so positional edit and delete addressing
stays valid on filtered results. -/
theorem C8_filter_index_stability
    (g : Grouped) (query : String) (out : FilteredView)
    (h1 : (g.map Prod.fst).Nodup)
    (h2 : ∀ p ∈ g, (p.2.map Prod.fst).Nodup)
    (hout : ToolLauncherLogic.get_filtered_items g query = .ok out) :
    ∀ c ts, (c, ts) ∈ out → ∀ t ms, (t, ms) ∈ ts → ∀ i it, (i, it) ∈ ms →
      ∃ tm b, alFind? g c = some tm ∧ alFind? tm t = some b ∧
        b.get? i = some it := by
  refine filterCats_spec ?_ ?_ hout
  · intro p hp
    refine ⟨?_, ?_⟩
    · rw [← Prod.mk.eta (p := p)] at hp
      exact alFind?_of_mem_nodup h1 hp
    · intro p2 hp2
      rw [← Prod.mk.eta (p := p2)] at hp2
      exact alFind?_of_mem_nodup (h2 p hp) hp2
  · intro c0 ts0 hmem
    simp at hmem

/-- Witness for C8: the empty query on a one-item grouped view returns
the pair with index 0, and that index addresses the item in the
unfiltered bucket. -/
theorem C8_filter_index_stability_witness :
    ∃ tm b,
      alFind? [("dev", [("folder", [some [("name", "A"), ("path", "/p")]])])] "dev" =
        some tm ∧
      alFind? tm "folder" = some b ∧
      b.get? 0 = some (some [("name", "A"), ("path", "/p")]) :=
  C8_filter_index_stability
    [("dev", [("folder", [some [("name", "A"), ("path", "/p")]])])] ""
    [("dev", [("folder", [(0, some [("name", "A"), ("path", "/p")])])])]
    (by decide) (by decide) rfl
    "dev" [("folder", [(0, some [("name", "A"), ("path", "/p")])])] (by simp)
    "folder" [(0, some [("name", "A"), ("path", "/p")])] (by simp)
    0 (some [("name", "A"), ("path", "/p")]) (by simp)

-- ==================== C5: round-trip idempotence ====================

set_option maxHeartbeats 1000000 in
theorem lowerChar_idem (c : Char) : lowerChar (lowerChar c) = lowerChar c := by
  unfold lowerChar
  split <;> first
    | rfl
    | (rename_i h; split at h <;> first
        | exact absurd h (by decide)
        | (subst h; contradiction))

theorem pyLower_idem (s : String) : pyLower (pyLower s) = pyLower s := by
  show String.mk (((s.data.map lowerChar)).map lowerChar) = String.mk (s.data.map lowerChar)
  rw [List.map_map]
  congr 1
  apply List.map_congr_left
  intro a _
  simp only [Function.comp_apply]
  exact lowerChar_idem a

theorem alContains_false_of_not_key {m : List (String × β)} {k : String}
    (h : k ∉ m.map Prod.fst) : alContains m k = false := by
  by_contra hc
  have hc' : alContains m k = true := by simpa using hc
  rcases alFind?_of_alContains hc' with ⟨v, hv⟩
  exact h (List.mem_map_of_mem Prod.fst (mem_of_alFind?_eq_some hv))

theorem rebuild_inner {c : String} :
    ∀ (ts : GTypeMap) (pre : Grouped) (acc : GTypeMap),
      alContains pre c = false →
      ((acc ++ ts).map Prod.fst).Nodup →
      (∀ q ∈ ts, pyLower q.1 = q.1 ∧ ∀ e ∈ q.2, entryTruthy e = true) →
      (ts.map (fun tv => (tv.1, BucketVal.arr tv.2))).foldl
          (ToolLauncher.normInnerStep c) (pre ++ [(c, acc)]) =
        pre ++ [(c, acc ++ ts)] := by
  intro ts
  induction ts with
  | nil =>
      intro pre acc _ _ _
      simp
  | cons q rest ih =>
      intro pre acc hpre hnodup hcanon
      obtain ⟨t, b⟩ := q
      rcases hcanon (t, b) (List.mem_cons_self _ _) with ⟨ht, hbT⟩
      have htacc : alContains acc t = false := by
        apply alContains_false_of_not_key
        have : (t :: (acc.map Prod.fst ++ rest.map Prod.fst)).Nodup := by
          rw [← List.nodup_middle]
          simpa [List.map_append] using hnodup
        intro hmem
        exact (List.nodup_cons.mp this).1 (List.mem_append.mpr (Or.inl hmem))
      have hstep : ToolLauncher.normInnerStep c (pre ++ [(c, acc)]) (t, BucketVal.arr b) =
          pre ++ [(c, acc ++ [(t, b)])] := by
        simp only [ToolLauncher.normInnerStep, ht]
        rw [alModify_append_fresh hpre]
        rw [alEnsure_of_not_contains htacc, alModify_append_fresh htacc]
        simp only [ToolLauncher.bucketContrib]
        rw [List.filter_eq_self.mpr hbT]
        simp
      simp only [List.map_cons, List.foldl_cons, hstep]
      have hnodup' : ((acc ++ [(t, b)] ++ rest).map Prod.fst).Nodup := by
        simpa [List.append_assoc] using hnodup
      rw [ih pre (acc ++ [(t, b)]) hpre hnodup'
        (fun q' hq' => hcanon q' (List.mem_cons_of_mem _ hq'))]
      simp [List.append_assoc]

theorem rebuild_outer :
    ∀ (rest : Grouped) (pre : Grouped),
      ((pre ++ rest).map Prod.fst).Nodup →
      (∀ p ∈ rest, pyLower p.1 = p.1 ∧ (p.2.map Prod.fst).Nodup ∧
        ∀ q ∈ p.2, pyLower q.1 = q.1 ∧ ∀ e ∈ q.2, entryTruthy e = true) →
      (groupedToRaw rest).foldl ToolLauncher.normStepNested pre = pre ++ rest := by
  intro rest
  induction rest with
  | nil =>
      intro pre _ _
      simp [groupedToRaw]
  | cons p rest' ih =>
      intro pre hnodup hcanon
      obtain ⟨c, tm⟩ := p
      rcases hcanon (c, tm) (List.mem_cons_self _ _) with ⟨hc, htmN, htmC⟩
      have hcpre : alContains pre c = false := by
        apply alContains_false_of_not_key
        have : (c :: (pre.map Prod.fst ++ rest'.map Prod.fst)).Nodup := by
          rw [← List.nodup_middle]
          simpa [List.map_append] using hnodup
        intro hmem
        exact (List.nodup_cons.mp this).1 (List.mem_append.mpr (Or.inl hmem))
      have hstep : ToolLauncher.normStepNested pre
          (c, tm.map (fun tv => (tv.1, BucketVal.arr tv.2))) = pre ++ [(c, tm)] := by
        simp only [ToolLauncher.normStepNested, hc]
        rw [alEnsure_of_not_contains hcpre]
        have := rebuild_inner tm pre [] hcpre (by simpa using htmN) htmC
        simpa using this
      simp only [groupedToRaw, List.map_cons, List.foldl_cons]
      rw [hstep]
      have hnodup' : (((pre ++ [(c, tm)]) ++ rest').map Prod.fst).Nodup := by
        simpa [List.append_assoc] using hnodup
      have := ih (pre ++ [(c, tm)]) hnodup'
        (fun p' hp' => hcanon p' (List.mem_cons_of_mem _ hp'))
      simp only [groupedToRaw] at this
      rw [this]
      simp [List.append_assoc]

theorem canon_normInnerStep {g : Grouped} {c : String} (tv : String × BucketVal)
    (hg1 : (g.map Prod.fst).Nodup)
    (hg2 : ∀ p ∈ g, pyLower p.1 = p.1 ∧ (p.2.map Prod.fst).Nodup ∧
      ∀ q ∈ p.2, pyLower q.1 = q.1) :
    ((ToolLauncher.normInnerStep c g tv).map Prod.fst).Nodup ∧
    ∀ p ∈ ToolLauncher.normInnerStep c g tv, pyLower p.1 = p.1 ∧
      (p.2.map Prod.fst).Nodup ∧ ∀ q ∈ p.2, pyLower q.1 = q.1 := by
  constructor
  · simp only [ToolLauncher.normInnerStep]
    exact nodup_keys_alModify hg1
  · intro p hp
    simp only [ToolLauncher.normInnerStep] at hp
    rcases mem_alModify hp with h | ⟨tm, htm, hpe⟩
    · exact hg2 p h
    · rcases hg2 (c, tm) htm with ⟨hcl, htmN, htmL⟩
      rw [hpe]
      refine ⟨hcl, nodup_keys_alModify (nodup_keys_alEnsure htmN), ?_⟩
      intro q hq
      rcases mem_alModify hq with h1 | ⟨b, hb, hqe⟩
      · rcases mem_alEnsure h1 with h2 | h2
        · exact htmL q h2
        · rw [h2]
          exact pyLower_idem tv.1
      · rw [hqe]
        exact pyLower_idem tv.1

theorem canon_normStepNested {g : Grouped} (ce : String × TypeMap)
    (hg1 : (g.map Prod.fst).Nodup)
    (hg2 : ∀ p ∈ g, pyLower p.1 = p.1 ∧ (p.2.map Prod.fst).Nodup ∧
      ∀ q ∈ p.2, pyLower q.1 = q.1) :
    ((ToolLauncher.normStepNested g ce).map Prod.fst).Nodup ∧
    ∀ p ∈ ToolLauncher.normStepNested g ce, pyLower p.1 = p.1 ∧
      (p.2.map Prod.fst).Nodup ∧ ∀ q ∈ p.2, pyLower q.1 = q.1 := by
  simp only [ToolLauncher.normStepNested]
  refine foldl_inv
    (fun g' : Grouped => ((g'.map Prod.fst).Nodup ∧
      ∀ p ∈ g', pyLower p.1 = p.1 ∧ (p.2.map Prod.fst).Nodup ∧
        ∀ q ∈ p.2, pyLower q.1 = q.1))
    ?_ ce.2 _ ?_
  · intro g' tv hg'
    exact canon_normInnerStep tv hg'.1 hg'.2
  · refine ⟨nodup_keys_alEnsure hg1, ?_⟩
    intro p hp
    rcases mem_alEnsure hp with h | h
    · exact hg2 p h
    · rw [h]
      exact ⟨pyLower_idem ce.1, by simp, by simp⟩

theorem canon_normalize_nested (m : NestedMap) :
    ((ToolLauncher.normalize_grouped (.nested m)).map Prod.fst).Nodup ∧
    ∀ p ∈ ToolLauncher.normalize_grouped (.nested m), pyLower p.1 = p.1 ∧
      (p.2.map Prod.fst).Nodup ∧ ∀ q ∈ p.2, pyLower q.1 = q.1 := by
  simp only [ToolLauncher.normalize_grouped]
  refine foldl_inv
    (fun g' : Grouped => ((g'.map Prod.fst).Nodup ∧
      ∀ p ∈ g', pyLower p.1 = p.1 ∧ (p.2.map Prod.fst).Nodup ∧
        ∀ q ∈ p.2, pyLower q.1 = q.1))
    ?_ m [] ⟨by simp, by simp⟩
  intro g' ce hg'
  exact canon_normStepNested ce hg'.1 hg'.2

theorem truthy_normalize_nested (m : NestedMap) :
    ∀ p ∈ ToolLauncher.normalize_grouped (.nested m), ∀ q ∈ p.2, ∀ e ∈ q.2,
      entryTruthy e = true := by
  simp only [ToolLauncher.normalize_grouped]
  exact foldl_inv
    (fun g' : Grouped => ∀ p ∈ g', ∀ q ∈ p.2, ∀ e ∈ q.2, entryTruthy e = true)
    (fun g' ce h => truthy_normStepNested ce h) m [] (by simp)

/-- C5: round-trip idempotence for nested-shape catalogues: writing the
grouped view back in the nested raw shape (which is what the save path
does after a nested-source mutation) and normalizing again reproduces
the grouped view exactly, with the same category and type keys, the
same items and the same per-bucket order. -/
theorem C5_roundtrip_idempotence (m : NestedMap) :
    ToolLauncher.normalize_grouped
        (.nested (groupedToRaw (ToolLauncher.normalize_grouped (.nested m)))) =
      ToolLauncher.normalize_grouped (.nested m) := by
  rcases canon_normalize_nested m with ⟨h1, h2⟩
  have htruthy := truthy_normalize_nested m
  have := rebuild_outer (ToolLauncher.normalize_grouped (.nested m)) []
    (by simpa using h1)
    (fun p hp => ⟨(h2 p hp).1, (h2 p hp).2.1,
      fun q hq => ⟨(h2 p hp).2.2 q hq, htruthy p hp q hq⟩⟩)
  simpa [ToolLauncher.normalize_grouped] using this
